import Mathlib

/-!
Verification of the data-preparation core of the AI-text-detection pipeline
(`src/app.js` and the second variant `src/unnamed/part_000`).

The JavaScript code is shallowly embedded: JS scalar cell values become the
inductive `Cell`; the vocabulary object `wordIndex` (a plain JS object whose
property reads fall through to `Object.prototype`) becomes an association
list of own properties together with the prototype-aware read `jsGet`;
machine work is done on `Nat`/`Int`/`String`/`List`.
-/

namespace AITextDetect

/-- A value read out of the JS vocabulary object `wordIndex` by
`wordIndex[word]`: either an own numeric property, an inherited member of
`Object.prototype` (a function or object, in every case a truthy non-number),
or `undefined` when the property is absent altogether. -/
inductive JsVal where
  | num (n : Nat)
  | protoFn
  | undef
deriving DecidableEq, Repr

/-- The property names a plain JS object literal inherits from
`Object.prototype`; reading any of these on `wordIndex` yields a truthy
function/object even though the key was never assigned. -/
def protoProps : List String :=
  ["constructor", "hasOwnProperty", "isPrototypeOf", "propertyIsEnumerable",
   "toLocaleString", "toString", "valueOf", "__defineGetter__",
   "__defineSetter__", "__lookupGetter__", "__lookupSetter__", "__proto__"]

/-- The vocabulary `wordIndex`: the own (assigned) properties of the JS
object, in assignment order. -/
abbrev Vocab := List (String × Nat)

/-- The JS property read `m[k]` on the vocabulary object: the first own
property if present, otherwise the inherited `Object.prototype` member,
otherwise `undefined`. -/
def jsGet (m : Vocab) (k : String) : JsVal :=
  match m.lookup k with
  | some n => JsVal.num n
  | none => if k ∈ protoProps then JsVal.protoFn else JsVal.undef

/-- JS truthiness of a vocabulary read: `0` is falsy, every other number is
truthy, inherited functions/objects are truthy, `undefined` is falsy. -/
def truthy : JsVal → Bool
  | JsVal.num n => n ≠ 0
  | JsVal.protoFn => true
  | JsVal.undef => false

/-! ## Tokenizer (`simpleTokenizer`, src/app.js lines 91-96 and
src/unnamed/part_000 lines 96-101)

`text.toLowerCase().replace(/[.,\/#!$%\^&\*;:\x7b\x7d=\-_\x60~()]/g,"")
     .split(/\s+/).filter(word => word.length > 0)`
-/

/-- Character codes of the punctuation set stripped by the tokenizer's
`replace`: `. , / # ! $ % ^ & * ; : \x7b \x7d = - _ \x60 ~ ( )`
(the last brace pair being the curly braces and 96 the backquote). -/
def punctCodes : List Nat :=
  [46, 44, 47, 35, 33, 36, 37, 94, 38, 42, 59, 58, 123, 125, 61, 45, 95, 96, 126, 40, 41]

/-- The stripped punctuation characters themselves. -/
def punctChars : List Char := punctCodes.map Char.ofNat

/-- The JS `\s` class restricted to the character values that occur in these
CSV texts: tab, line feed, vertical tab, form feed, carriage return, space,
and no-break space. -/
def isJsSpace (c : Char) : Bool := c.toNat ∈ [9, 10, 11, 12, 13, 32, 160]

/-- The ASCII case mapping performed by JS `toLowerCase`: code points 65-90
shift by 32, everything else is unchanged. -/
def jsToLower (c : Char) : Char :=
  if 65 ≤ c.toNat ∧ c.toNat ≤ 90 then Char.ofNat (c.toNat + 32) else c

/-- JS `String.prototype.trim`: strip leading and trailing whitespace. -/
def jsTrim (s : String) : String :=
  String.mk (((s.data.dropWhile isJsSpace).reverse.dropWhile isJsSpace).reverse)

/-- `split(/\s+/)` followed by `filter(word => word.length > 0)`: the maximal
runs of non-separator characters, accumulated in `acc` (reversed) while a run
is open. -/
def splitRuns (p : Char → Bool) : List Char → List Char → List (List Char)
  | [], acc => if acc = [] then [] else [acc.reverse]
  | c :: cs, acc =>
    if p c then
      if acc = [] then splitRuns p cs []
      else acc.reverse :: splitRuns p cs []
    else splitRuns p cs (c :: acc)

/-- The tokenization chain applied to a (non-empty) string: lowercase each
character, delete the punctuation characters, split on whitespace runs and
keep the non-empty words. -/
def strTokenize (s : String) : List String :=
  (splitRuns isJsSpace
    ((s.data.map jsToLower).filter (fun c => decide (c ∉ punctChars))) []).map
    (fun l => String.mk l)

/-- `simpleTokenizer` on a string argument: the guard `!text` returns `[]`
for the empty string (the only falsy string); otherwise the chain runs. -/
def simpleTokenizer (s : String) : List String :=
  if s = "" then [] else strTokenize s

/-- A scalar cell value as produced by the CSV parser with `dynamicTyping`:
a string, a number (integer-valued cells), `null`, `undefined` or a boolean. -/
inductive Cell where
  | str (s : String)
  | num (n : Int)
  | null
  | undef
  | boolean (b : Bool)
deriving DecidableEq, Repr

/-- `simpleTokenizer` at its public JS interface: the guard
`if (!text || typeof text !== 'string') return []` makes every non-string
argument (and the empty string) yield `[]`. -/
def simpleTokenizerJs (v : Cell) : List String :=
  match v with
  | Cell.str s => if s = "" then [] else strTokenize s
  | _ => []

/-! ## File validation (`handleFileChange`, src/app.js lines 101-129 and
src/unnamed/part_000 lines 106-136) -/

/-- The three dataset roles keyed in `loadedFiles` / `REQUIRED_FILES`. -/
inductive Role where
  | training
  | testing
  | validated
deriving DecidableEq, Repr

/-- All three roles, in the order of `Object.keys(loadedFiles)`. -/
def allRoles : List Role := [Role.training, Role.testing, Role.validated]

/-- `REQUIRED_FILES`: the fixed expected file name per role. -/
def requiredFileName : Role → String
  | Role.training => "train.csv"
  | Role.testing => "test.csv"
  | Role.validated => "validation.csv"

/-- A selected file, as far as the validator looks at it: its name (the size
is only echoed in the status text). -/
structure DataFile where
  name : String
deriving DecidableEq, Repr

/-- The `loadedFiles` state: the accepted file per role (or `null`). -/
def LoadedFiles := Role → Option DataFile

/-- Write one role's entry of `loadedFiles`, leaving the others alone. -/
def setRole (s : LoadedFiles) (r : Role) (v : Option DataFile) : LoadedFiles :=
  fun q => if q = r then v else s q

/-- `handleFileChange` of src/app.js: with no file selected the role is
cleared; with a file whose name equals the role's expected name the file is
stored; otherwise the input is reset and the role is cleared. -/
def handleFileChange (s : LoadedFiles) (r : Role) (file : Option DataFile) : LoadedFiles :=
  match file with
  | none => setRole s r none
  | some f =>
    if f.name = requiredFileName r then setRole s r (some f)
    else setRole s r none

/-- `handleFileChange` of src/unnamed/part_000: identical except that the
no-file branch returns without touching the state. -/
def handleFileChangeV2 (s : LoadedFiles) (r : Role) (file : Option DataFile) : LoadedFiles :=
  match file with
  | none => s
  | some f =>
    if f.name = requiredFileName r then setRole s r (some f)
    else setRole s r none

/-! ## Loading (`loadData`, src/app.js lines 132-183 and
src/unnamed/part_000 lines 139-183)

After all three `Papa.parse` callbacks have completed, the roles whose
stored data has zero rows are collected into `emptyKeys`; a non-empty
`emptyKeys` produces a single error message naming all of them and keeps
the user at step 1, otherwise the stage succeeds and step 2 (inspection)
is unlocked. -/

/-- The outcome of the zero-row check that ends `loadData`. -/
inductive LoadOutcome where
  | success
  | dataError (emptyRoles : List Role)
deriving DecidableEq, Repr

/-- The join point of `loadData` (`filesParsed === keys.length`): given the
per-role row lists, compute `emptyKeys` and either fail with all of them or
succeed. -/
def loadDataOutcome {α : Type} (data : Role → List α) : LoadOutcome :=
  let emptyKeys := allRoles.filter (fun k => (data k).length = 0)
  if 0 < emptyKeys.length then LoadOutcome.dataError emptyKeys else LoadOutcome.success

/-! ## Row normalization (src/unnamed/part_000, `inspectData` lines 229-260)

Each raw row is read through the inferred `textKey`/`labelKey`; here a row
is represented already keyed, as its text cell and its label cell. -/

/-- A raw row, restricted to the two cells `row[textKey]` and
`row[labelKey]` that normalization reads. -/
structure RawRow where
  text : Cell
  label : Cell
deriving DecidableEq, Repr

/-- A surviving normalized row: trimmed text and an integer label. -/
structure NRow where
  text : String
  label : Nat
deriving DecidableEq, Repr

/-- The label coercion of `inspectData`: literal `0`/`1` pass through, a
string passes iff it trims to exactly `"0"` or `"1"`, everything else leaves
`label` at `null`. -/
def coerceLabel : Cell → Option Nat
  | Cell.num n => if n = 0 then some 0 else if n = 1 then some 1 else none
  | Cell.str s => if jsTrim s = "0" then some 0 else if jsTrim s = "1" then some 1 else none
  | _ => none

/-- The per-row body of the `map` in `inspectData`: a row is kept iff its
text cell is a string with positive trimmed length and label coercion
succeeded; the kept row carries the trimmed text and the coerced label. -/
def normalizeRow (r : RawRow) : Option NRow :=
  match coerceLabel r.label with
  | none => none
  | some l =>
    match r.text with
    | Cell.str s => if (jsTrim s).length = 0 then none else some (NRow.mk (jsTrim s) l)
    | _ => none

/-- One role's pass of the normalization loop: the surviving rows in order
(`.map(...).filter(row => row !== null)`). -/
def normalizeRows (rows : List RawRow) : List NRow :=
  rows.filterMap normalizeRow

/-- The `invalidRows` counter of the same loop: the number of rows mapped to
`null`. -/
def invalidCount (rows : List RawRow) : Nat :=
  (rows.filter (fun r => (normalizeRow r).isNone)).length

/-! ## Vocabulary building (`preprocessData`, src/unnamed/part_000 lines
309-329, and the src/app.js variant lines 225-244) -/

/-- One step of `uniqueWords.add(word)`: JS `Set` keeps insertion order and
ignores re-insertions. -/
def insertUnique (l : List String) (w : String) : List String :=
  if w ∈ l then l else l ++ [w]

/-- `uniqueWords`: every token of every training row, scanned in row order
and token order within a row, first occurrences kept in encounter order. -/
def uniqueWords (rows : List NRow) : List String :=
  (rows.flatMap (fun r => simpleTokenizer r.text)).foldl insertUnique []

/-- The assignment loop of `preprocessData`: for each unique word, the guard
`if (!wordIndex[word])` reads the JS object (falling through to
`Object.prototype`), and only a falsy read assigns `wordIndex[word] =
index++`. Returns the final object and the final `index` (`VOCAB_SIZE`). -/
def buildVocab : List String → Vocab → Nat → Vocab × Nat
  | [], m, i => (m, i)
  | w :: ws, m, i =>
    if truthy (jsGet m w) then buildVocab ws m i
    else buildVocab ws (m ++ [(w, i)]) (i + 1)

/-- `preprocessData` of src/unnamed/part_000: reserved entries
`<PAD>` at 0 and `<OOV>` at 1, dense assignment starting at `index = 2`. -/
def preprocessData (rows : List NRow) : Vocab × Nat :=
  buildVocab (uniqueWords rows) [("<PAD>", 0), ("<OOV>", 1)] 2

/-- `preprocessData` of src/app.js: identical except `let index = 1`, so the
assignment starts at 1 on top of the same reserved entries. -/
def preprocessDataApp (rows : List NRow) : Vocab × Nat :=
  buildVocab (uniqueWords rows) [("<PAD>", 0), ("<OOV>", 1)] 1

/-! ## Sequence encoding (`processTextToSequence`, src/app.js lines 266-280
and src/unnamed/part_000 lines 354-368) -/

/-- `MAX_SEQUENCE_LENGTH`. -/
def MAX_SEQUENCE_LENGTH : Nat := 50

/-- The element map `word => wordIndexMap[word] || 1`: a truthy read passes
through, a falsy read (absent key, or the own value 0) becomes `1`. -/
def mapToken (m : Vocab) (w : String) : JsVal :=
  let v := jsGet m w
  if truthy v then v else JsVal.num 1

/-- The truncation and padding applied to the mapped token list:
`slice(0, maxLength)` when too long, then `while (length < maxLength)
push(0)`. -/
def encodeTokens (tokens : List String) (m : Vocab) (maxLength : Nat) : List JsVal :=
  let sequence := tokens.map (mapToken m)
  let sequence := if maxLength < sequence.length then sequence.take maxLength else sequence
  sequence ++ List.replicate (maxLength - sequence.length) (JsVal.num 0)

/-- `processTextToSequence(text, wordIndexMap, maxLength)`. -/
def processTextToSequence (text : String) (m : Vocab) (maxLength : Nat) : List JsVal :=
  encodeTokens (simpleTokenizer text) m maxLength

/-- The inline encoding in `makePrediction` (src/app.js lines 451-460,
src/unnamed/part_000 lines 543-552): tokenize the input text, map with
`wordIndex[word] || 1`, `slice(0, MAX_SEQUENCE_LENGTH)` when too long, then
push `0` until the length reaches `MAX_SEQUENCE_LENGTH`. -/
def makePredictionEncode (text : String) (m : Vocab) : List JsVal :=
  let tokens := simpleTokenizer text
  let sequence := tokens.map (mapToken m)
  let sequence :=
    if MAX_SEQUENCE_LENGTH < sequence.length then sequence.take MAX_SEQUENCE_LENGTH
    else sequence
  sequence ++ List.replicate (MAX_SEQUENCE_LENGTH - sequence.length) (JsVal.num 0)

/-! ## Supporting lemmas -/

lemma toNat_ofNat_of_lt {n : Nat} (h : n < 55296) : (Char.ofNat n).toNat = n := by
  unfold Char.ofNat
  rw [dif_pos (Or.inl h)]
  rfl

lemma jsToLower_not_upper (c : Char) :
    ¬ (65 ≤ (jsToLower c).toNat ∧ (jsToLower c).toNat ≤ 90) := by
  unfold jsToLower
  by_cases h : 65 ≤ c.toNat ∧ c.toNat ≤ 90
  · rw [if_pos h, toNat_ofNat_of_lt (by omega)]
    omega
  · rw [if_neg h]
    omega

lemma splitRuns_mem (p : Char → Bool) :
    ∀ (l acc : List Char), (∀ c ∈ acc, p c = false) →
      ∀ t ∈ splitRuns p l acc, t ≠ [] ∧ ∀ c ∈ t, (c ∈ acc ∨ c ∈ l) ∧ p c = false := by
  intro l
  induction l with
  | nil =>
    intro acc hacc t ht
    simp only [splitRuns] at ht
    split at ht
    · simp at ht
    · next hne =>
      rw [List.mem_singleton] at ht
      subst ht
      refine ⟨by simpa using hne, ?_⟩
      intro c hc
      rw [List.mem_reverse] at hc
      exact ⟨Or.inl hc, hacc c hc⟩
  | cons a as ih =>
    intro acc hacc t ht
    simp only [splitRuns] at ht
    by_cases hpa : p a = true
    · rw [if_pos hpa] at ht
      by_cases he : acc = []
      · rw [if_pos he] at ht
        obtain ⟨hne, hmem⟩ := ih [] (by simp) t ht
        refine ⟨hne, fun c hc => ?_⟩
        obtain ⟨hin, hp⟩ := hmem c hc
        exact ⟨Or.elim hin (by simp) (fun h => Or.inr (List.mem_cons_of_mem a h)), hp⟩
      · rw [if_neg he] at ht
        rcases List.mem_cons.mp ht with h | h
        · subst h
          refine ⟨by simpa using he, fun c hc => ?_⟩
          rw [List.mem_reverse] at hc
          exact ⟨Or.inl hc, hacc c hc⟩
        · obtain ⟨hne, hmem⟩ := ih [] (by simp) t h
          refine ⟨hne, fun c hc => ?_⟩
          obtain ⟨hin, hp⟩ := hmem c hc
          exact ⟨Or.elim hin (by simp) (fun hx => Or.inr (List.mem_cons_of_mem a hx)), hp⟩
    · rw [if_neg hpa] at ht
      have hacc2 : ∀ c ∈ a :: acc, p c = false := by
        intro c hc
        rcases List.mem_cons.mp hc with h | h
        · subst h; simpa using hpa
        · exact hacc c h
      obtain ⟨hne, hmem⟩ := ih (a :: acc) hacc2 t ht
      refine ⟨hne, fun c hc => ?_⟩
      obtain ⟨hin, hp⟩ := hmem c hc
      refine ⟨?_, hp⟩
      rcases hin with h | h
      · rcases List.mem_cons.mp h with h1 | h1
        · subst h1; exact Or.inr (List.mem_cons_self _ _)
        · exact Or.inl h1
      · exact Or.inr (List.mem_cons_of_mem a h)

lemma strTokenize_mem (s w : String) (hw : w ∈ strTokenize s) :
    w ≠ "" ∧ ∀ c ∈ w.data,
      (∃ c₀, c = jsToLower c₀) ∧ c ∉ punctChars ∧ isJsSpace c = false := by
  unfold strTokenize at hw
  rw [List.mem_map] at hw
  obtain ⟨t, ht, rfl⟩ := hw
  obtain ⟨hne, hmem⟩ := splitRuns_mem isJsSpace _ [] (by simp) t ht
  constructor
  · intro h
    exact hne (congrArg String.data h)
  · intro c hc
    obtain ⟨hin, hsp⟩ := hmem c hc
    rcases hin with h | h
    · simp at h
    · rw [List.mem_filter] at h
      obtain ⟨h1, h2⟩ := h
      rw [List.mem_map] at h1
      obtain ⟨c₀, _, rfl⟩ := h1
      exact ⟨⟨c₀, rfl⟩, of_decide_eq_true h2, hsp⟩

lemma strTokenize_ne_sentinel (s w : String) (hw : w ∈ strTokenize s) :
    w ≠ "<PAD>" ∧ w ≠ "<OOV>" := by
  obtain ⟨-, hmem⟩ := strTokenize_mem s w hw
  constructor
  · intro h
    subst h
    obtain ⟨⟨c₀, hc⟩, -, -⟩ := hmem (Char.ofNat 80) (by decide)
    have hup := jsToLower_not_upper c₀
    rw [← hc] at hup
    exact hup (by decide)
  · intro h
    subst h
    obtain ⟨⟨c₀, hc⟩, -, -⟩ := hmem (Char.ofNat 79) (by decide)
    have hup := jsToLower_not_upper c₀
    rw [← hc] at hup
    exact hup (by decide)

lemma simpleTokenizer_subset (s w : String) (hw : w ∈ simpleTokenizer s) :
    w ∈ strTokenize s := by
  unfold simpleTokenizer at hw
  split at hw
  · simp at hw
  · exact hw

lemma mem_foldl_insertUnique :
    ∀ (l acc : List String) (w : String), w ∈ l.foldl insertUnique acc → w ∈ acc ∨ w ∈ l := by
  intro l
  induction l with
  | nil => intro acc w h; exact Or.inl h
  | cons a as ih =>
    intro acc w h
    simp only [List.foldl_cons] at h
    rcases ih _ w h with h1 | h1
    · unfold insertUnique at h1
      split at h1
      · exact Or.inl h1
      · rw [List.mem_append] at h1
        rcases h1 with h2 | h2
        · exact Or.inl h2
        · rw [List.mem_singleton] at h2
          subst h2
          exact Or.inr (List.mem_cons_self _ _)
    · exact Or.inr (List.mem_cons_of_mem _ h1)

lemma nodup_foldl_insertUnique :
    ∀ (l acc : List String), acc.Nodup → (l.foldl insertUnique acc).Nodup := by
  intro l
  induction l with
  | nil => intro acc h; exact h
  | cons a as ih =>
    intro acc h
    simp only [List.foldl_cons]
    apply ih
    unfold insertUnique
    split
    · exact h
    · next hna =>
      refine List.Nodup.append h (List.nodup_singleton a) ?_
      intro x hx hx2
      rw [List.mem_singleton] at hx2
      subst hx2
      exact hna hx

lemma uniqueWords_nodup (rows : List NRow) : (uniqueWords rows).Nodup :=
  nodup_foldl_insertUnique _ [] List.nodup_nil

lemma uniqueWords_tokens (rows : List NRow) (w : String) (hw : w ∈ uniqueWords rows) :
    ∃ r ∈ rows, w ∈ simpleTokenizer r.text := by
  rcases mem_foldl_insertUnique _ [] w hw with h | h
  · simp at h
  · rw [List.mem_flatMap] at h
    exact h

lemma lookup_append (l₁ l₂ : List (String × Nat)) (k : String) :
    (l₁ ++ l₂).lookup k = ((l₁.lookup k).or (l₂.lookup k)) := by
  induction l₁ with
  | nil => simp [List.lookup]
  | cons h t ih =>
    simp only [List.cons_append, List.lookup]
    split <;> simp [ih]

lemma buildVocab_preserves :
    ∀ (ws : List String) (m : Vocab) (i : Nat) (k : String) (v : Nat),
      m.lookup k = some v → ((buildVocab ws m i).1).lookup k = some v := by
  intro ws
  induction ws with
  | nil => intro m i k v h; exact h
  | cons w ws ih =>
    intro m i k v h
    unfold buildVocab
    split
    · exact ih m i k v h
    · apply ih
      rw [lookup_append, h]
      rfl

lemma buildVocab_spec :
    ∀ (ws : List String) (m : Vocab) (i : Nat), ws.Nodup →
      (∀ w ∈ ws, m.lookup w = none ∧ w ∉ protoProps) →
      (buildVocab ws m i).2 = i + ws.length ∧
      ∀ j, (hj : j < ws.length) →
        ((buildVocab ws m i).1).lookup (ws.get ⟨j, hj⟩) = some (i + j) := by
  intro ws
  induction ws with
  | nil =>
    intro m i _ _
    exact ⟨by simp [buildVocab], by intro j hj; simp at hj⟩
  | cons w ws ih =>
    intro m i hnd hws
    obtain ⟨hw, hproto⟩ := hws w (List.mem_cons_self _ _)
    have hguard : truthy (jsGet m w) = false := by
      unfold jsGet
      rw [hw, if_neg hproto]
      rfl
    unfold buildVocab
    rw [if_neg (by simp [hguard])]
    have hnotin : w ∉ ws := (List.nodup_cons.mp hnd).1
    have hws2 : ∀ x ∈ ws, (m ++ [(w, i)]).lookup x = none ∧ x ∉ protoProps := by
      intro x hx
      obtain ⟨hx1, hx2⟩ := hws x (List.mem_cons_of_mem _ hx)
      refine ⟨?_, hx2⟩
      have hne : x ≠ w := fun h => hnotin (h ▸ hx)
      have hb : (x == w) = false := beq_eq_false_iff_ne.mpr hne
      rw [lookup_append, hx1]
      simp [List.lookup, hb]
    obtain ⟨hsize, hget⟩ := ih (m ++ [(w, i)]) (i + 1) (List.nodup_cons.mp hnd).2 hws2
    constructor
    · rw [hsize]
      simp only [List.length_cons]
      omega
    · intro j hj
      match j with
      | 0 =>
        have hmw : (m ++ [(w, i)]).lookup w = some i := by
          rw [lookup_append, hw]
          simp [List.lookup]
        have := buildVocab_preserves ws (m ++ [(w, i)]) (i + 1) w i hmw
        simpa using this
      | Nat.succ j' =>
        have hj' : j' < ws.length := by
          simp only [List.length_cons] at hj
          omega
        have := hget j' hj'
        have heq : i + 1 + j' = i + (j' + 1) := by omega
        rw [heq] at this
        simpa using this

/-! ## Claim theorems -/

/-- C1 (amended): in the src/unnamed/part_000 variant of `preprocessData`,
for every training set none of whose distinct tokens is an
`Object.prototype` property name, the vocabulary maps `<PAD>` to 0 and
`<OOV>` to 1, assigns the j-th distinct token (first-encounter order: row
order, then token order within a row, as collected by `uniqueWords`) the
dense index 2 + j, and reports `VOCAB_SIZE` = 2 plus the number of distinct
tokens. -/
theorem C1_vocab_amended (rows : List NRow)
    (hp : ∀ w ∈ uniqueWords rows, w ∉ protoProps) :
    jsGet (preprocessData rows).1 "<PAD>" = JsVal.num 0 ∧
    jsGet (preprocessData rows).1 "<OOV>" = JsVal.num 1 ∧
    (∀ j, (hj : j < (uniqueWords rows).length) →
      ((preprocessData rows).1).lookup ((uniqueWords rows).get ⟨j, hj⟩) = some (2 + j)) ∧
    (preprocessData rows).2 = 2 + (uniqueWords rows).length := by
  have hsent : ∀ w ∈ uniqueWords rows, w ≠ "<PAD>" ∧ w ≠ "<OOV>" := by
    intro w hw
    obtain ⟨r, -, htok⟩ := uniqueWords_tokens rows w hw
    exact strTokenize_ne_sentinel _ w (simpleTokenizer_subset _ w htok)
  have hinit : ∀ w ∈ uniqueWords rows,
      ([("<PAD>", 0), ("<OOV>", 1)] : Vocab).lookup w = none ∧ w ∉ protoProps := by
    intro w hw
    obtain ⟨h1, h2⟩ := hsent w hw
    have b1 : (w == "<PAD>") = false := beq_eq_false_iff_ne.mpr h1
    have b2 : (w == "<OOV>") = false := beq_eq_false_iff_ne.mpr h2
    exact ⟨by simp [List.lookup, b1, b2], hp w hw⟩
  obtain ⟨hsize, hget⟩ :=
    buildVocab_spec (uniqueWords rows) [("<PAD>", 0), ("<OOV>", 1)] 2
      (uniqueWords_nodup rows) hinit
  have hPAD := buildVocab_preserves (uniqueWords rows) [("<PAD>", 0), ("<OOV>", 1)] 2
    "<PAD>" 0 (by decide)
  have hOOV := buildVocab_preserves (uniqueWords rows) [("<PAD>", 0), ("<OOV>", 1)] 2
    "<OOV>" 1 (by decide)
  refine ⟨?_, ?_, hget, hsize⟩
  · unfold preprocessData jsGet
    rw [hPAD]
  · unfold preprocessData jsGet
    rw [hOOV]

/-- C1 witness: on the training set with the single row "hello world", the
amended theorem yields the reserved entries and `VOCAB_SIZE` = 2 + 2. -/
theorem C1_vocab_amended_witness :
    jsGet (preprocessData [NRow.mk "hello world" 1]).1 "<PAD>" = JsVal.num 0 ∧
    jsGet (preprocessData [NRow.mk "hello world" 1]).1 "<OOV>" = JsVal.num 1 ∧
    ((preprocessData [NRow.mk "hello world" 1]).1).lookup "hello" = some 2 ∧
    (preprocessData [NRow.mk "hello world" 1]).2 = 2 + 2 := by
  have h := C1_vocab_amended [NRow.mk "hello world" 1] (by decide)
  refine ⟨h.1, h.2.1, ?_, h.2.2.2.trans (by decide)⟩
  have hlt : 0 < (uniqueWords [NRow.mk "hello world" 1]).length := by decide
  have h0 := h.2.2.1 0 hlt
  have hw : (uniqueWords [NRow.mk "hello world" 1]).get ⟨0, hlt⟩ = "hello" := rfl
  rw [hw] at h0
  exact h0

/-- C1 counterexample: the src/app.js variant of `preprocessData` starts its
counter at `index = 1`, so on the training set with the single row
"hello world" the first distinct token "hello" receives index 1 (colliding
with `<OOV>`) rather than 2, and `VOCAB_SIZE` is 3 rather than
2 + 2 = 4. -/
theorem C1_vocab_counterexample :
    ((preprocessDataApp [NRow.mk "hello world" 1]).1).lookup "hello" = some 1 ∧
    (preprocessDataApp [NRow.mk "hello world" 1]).2 = 3 ∧
    ¬ ((preprocessDataApp [NRow.mk "hello world" 1]).2 = 2 + 2) := by
  decide

/-- C2: for every token list, vocabulary and target length `maxLength`, the
sequence encoder returns exactly `maxLength` elements; when the mapped
sequence is longer it keeps exactly the first `maxLength` mapped values
(right truncation), and when it is at most `maxLength` it appends `0` (pad)
on the right up to `maxLength`. -/
theorem C2_encode_length (tokens : List String) (m : Vocab) (maxLength : Nat) :
    (encodeTokens tokens m maxLength).length = maxLength ∧
    (maxLength < (tokens.map (mapToken m)).length →
      encodeTokens tokens m maxLength = (tokens.map (mapToken m)).take maxLength) ∧
    ((tokens.map (mapToken m)).length ≤ maxLength →
      encodeTokens tokens m maxLength =
        tokens.map (mapToken m) ++
          List.replicate (maxLength - (tokens.map (mapToken m)).length) (JsVal.num 0)) := by
  have hform : encodeTokens tokens m maxLength =
      (if maxLength < (tokens.map (mapToken m)).length
        then (tokens.map (mapToken m)).take maxLength
        else tokens.map (mapToken m)) ++
        List.replicate
          (maxLength - (if maxLength < (tokens.map (mapToken m)).length
            then (tokens.map (mapToken m)).take maxLength
            else tokens.map (mapToken m)).length) (JsVal.num 0) := rfl
  rw [hform]
  by_cases h : maxLength < (tokens.map (mapToken m)).length
  · rw [if_pos h]
    refine ⟨?_, fun _ => ?_, fun h2 => ?_⟩
    · rw [List.length_append, List.length_take, List.length_replicate]
      omega
    · have hlen : ((tokens.map (mapToken m)).take maxLength).length = maxLength := by
        rw [List.length_take]
        omega
      rw [hlen]
      simp
    · exact absurd h (Nat.not_lt.mpr h2)
  · rw [if_neg h]
    refine ⟨?_, fun h2 => ?_, fun _ => rfl⟩
    · rw [List.length_append, List.length_replicate]
      omega
    · exact absurd h2 h

/-- C2 witness: with vocabulary a↦5, b↦6, c↦7, d↦8 and target length 3, the
four-token sequence is right-truncated to its first three mapped indices. -/
theorem C2_encode_length_witness :
    encodeTokens ["a", "b", "c", "d"] [("a", 5), ("b", 6), ("c", 7), ("d", 8)] 3 =
      [JsVal.num 5, JsVal.num 6, JsVal.num 7] := by
  have h := (C2_encode_length ["a", "b", "c", "d"]
    [("a", 5), ("b", 6), ("c", 7), ("d", 8)] 3).2.1 (by decide)
  exact h.trans (by decide)

/-- C3 (amended): with a vocabulary built by the src/unnamed/part_000
`preprocessData`, every element of an encoded sequence whose tokens avoid
the `Object.prototype` property names is an integer that is 0 (pad), 1
(OOV), or an index ≥ 2 assigned in the vocabulary, and a token absent from
the vocabulary always maps to the integer 1; a token coinciding with an
`Object.prototype` property name instead yields the inherited prototype
member, not an integer. -/
theorem C3_encoded_range_amended (rows : List NRow) (text : String) (maxLength : Nat)
    (hp : ∀ w ∈ simpleTokenizer text, w ∉ protoProps) :
    (∀ v ∈ processTextToSequence text (preprocessData rows).1 maxLength,
      ∃ k, v = JsVal.num k ∧
        (k = 0 ∨ k = 1 ∨
          (2 ≤ k ∧ ∃ w, ((preprocessData rows).1).lookup w = some k))) ∧
    (∀ w ∈ simpleTokenizer text, ((preprocessData rows).1).lookup w = none →
      mapToken (preprocessData rows).1 w = JsVal.num 1) := by
  constructor
  · intro v hv
    unfold processTextToSequence encodeTokens at hv
    rw [List.mem_append] at hv
    have hmapped : ∀ u ∈ (simpleTokenizer text).map (mapToken (preprocessData rows).1),
        ∃ k, u = JsVal.num k ∧
          (k = 0 ∨ k = 1 ∨
            (2 ≤ k ∧ ∃ w, ((preprocessData rows).1).lookup w = some k)) := by
      intro u hu
      rw [List.mem_map] at hu
      obtain ⟨w, hw, rfl⟩ := hu
      unfold mapToken jsGet
      cases hcase : ((preprocessData rows).1).lookup w with
      | some n =>
        by_cases hn : n = 0
        · subst hn
          exact ⟨1, by simp [truthy], Or.inr (Or.inl rfl)⟩
        · refine ⟨n, by simp [truthy, hn], ?_⟩
          rcases Nat.lt_or_ge n 2 with h2 | h2
          · interval_cases n
            · exact absurd rfl hn
            · exact Or.inr (Or.inl rfl)
          · exact Or.inr (Or.inr ⟨h2, w, hcase⟩)
      | none =>
        rw [if_neg (hp w hw)]
        exact ⟨1, by simp [truthy], Or.inr (Or.inl rfl)⟩
    rcases hv with hv | hv
    · split at hv
      · exact hmapped v (List.mem_of_mem_take hv)
      · exact hmapped v hv
    · rw [List.eq_of_mem_replicate hv]
      exact ⟨0, rfl, Or.inl rfl⟩
  · intro w hw hnone
    unfold mapToken jsGet
    rw [hnone, if_neg (hp w hw)]
    rfl

/-- C3 witness: encoding "unseen words" against the vocabulary built from
the single training row "hello world" yields only the integers 1 (both
tokens are OOV) and 0 (padding). -/
theorem C3_encoded_range_amended_witness :
    (∃ k, (JsVal.num 1 : JsVal) = JsVal.num k ∧
      (k = 0 ∨ k = 1 ∨
        (2 ≤ k ∧ ∃ w, ((preprocessData [NRow.mk "hello world" 1]).1).lookup w = some k))) ∧
    mapToken (preprocessData [NRow.mk "hello world" 1]).1 "unseen" = JsVal.num 1 := by
  have h := C3_encoded_range_amended [NRow.mk "hello world" 1] "unseen words" 5 (by decide)
  refine ⟨?_, ?_⟩
  · exact h.1 (JsVal.num 1) (by decide)
  · exact h.2 "unseen" (by decide) (by decide)

/-- C3 counterexample: the token "constructor" is absent from the vocabulary
built from "hello world", yet the read `wordIndex["constructor"]` finds the
inherited `Object.prototype.constructor`, which is truthy, so
`wordIndexMap[word] || 1` keeps the inherited function instead of mapping
the token to the integer 1: the encoded sequence contains a non-integer
element. -/
theorem C3_encoded_range_counterexample :
    JsVal.protoFn ∈ processTextToSequence "constructor"
      (preprocessData [NRow.mk "hello world" 1]).1 MAX_SEQUENCE_LENGTH ∧
    ∀ k, JsVal.protoFn ≠ JsVal.num k := by
  constructor
  · decide
  · intro k h
    cases h

/-- C5: the inline single-text encoding performed by `makePrediction`
(tokenize, map with OOV fallback 1, right-truncate to
`MAX_SEQUENCE_LENGTH`, right-pad with 0) agrees with the dataset-encoding
function `processTextToSequence` at the same vocabulary and the same length
constant, on every input text. -/
theorem C5_predict_encoding_refines (text : String) (m : Vocab) :
    makePredictionEncode text m = processTextToSequence text m MAX_SEQUENCE_LENGTH := rfl

/-- C6: for every input text the tokenizer produces no empty token and no
token containing a stripped punctuation character; moreover
`simpleTokenizer "Hello, World!" = ["hello", "world"]` and
`simpleTokenizer "" = []`. -/
theorem C6_tokenizer_shape (s : String) :
    (∀ t ∈ simpleTokenizer s, t ≠ "" ∧ ∀ c ∈ t.data, c ∉ punctChars) ∧
    simpleTokenizer "Hello, World!" = ["hello", "world"] ∧
    simpleTokenizer "" = [] := by
  refine ⟨?_, by decide, by decide⟩
  intro t ht
  obtain ⟨hne, hmem⟩ := strTokenize_mem s t (simpleTokenizer_subset s t ht)
  exact ⟨hne, fun c hc => (hmem c hc).2.1⟩

/-- C6 witness: the token "hello" produced from "Hello, World!" is non-empty
and contains none of the stripped punctuation characters. -/
theorem C6_tokenizer_shape_witness :
    ("hello" : String) ≠ "" ∧ ∀ c ∈ ("hello" : String).data, c ∉ punctChars := by
  have h := (C6_tokenizer_shape "Hello, World!").1 "hello" (by decide)
  exact h

lemma coerceLabel_isSome_iff (c : Cell) :
    (coerceLabel c).isSome ↔
      (c = Cell.num 0 ∨ c = Cell.num 1 ∨
        ∃ t, c = Cell.str t ∧ (jsTrim t = "0" ∨ jsTrim t = "1")) := by
  cases c with
  | str s =>
    by_cases h0 : jsTrim s = "0"
    · simp [coerceLabel, h0]
    · by_cases h1 : jsTrim s = "1"
      · simp [coerceLabel, h0, h1]
      · simp [coerceLabel, h0, h1]
  | num n =>
    by_cases h0 : n = 0
    · simp [coerceLabel, h0]
    · by_cases h1 : n = 1
      · simp [coerceLabel, h0, h1]
      · simp [coerceLabel, h0, h1]
  | null => simp [coerceLabel]
  | undef => simp [coerceLabel]
  | boolean b => simp [coerceLabel]

lemma coerceLabel_val (c : Cell) (l : Nat) (h : coerceLabel c = some l) :
    l = 0 ∨ l = 1 := by
  cases c with
  | str s =>
    simp only [coerceLabel] at h
    split at h
    · exact Or.inl (Option.some.inj h).symm
    · split at h
      · exact Or.inr (Option.some.inj h).symm
      · exact Option.noConfusion h
  | num n =>
    simp only [coerceLabel] at h
    split at h
    · exact Or.inl (Option.some.inj h).symm
    · split at h
      · exact Or.inr (Option.some.inj h).symm
      · exact Option.noConfusion h
  | null => exact Option.noConfusion h
  | undef => exact Option.noConfusion h
  | boolean b => exact Option.noConfusion h

lemma normalizeRow_isSome_iff (r : RawRow) :
    (normalizeRow r).isSome ↔
      ((∃ s, r.text = Cell.str s ∧ 0 < (jsTrim s).length) ∧
        (coerceLabel r.label).isSome) := by
  rcases r with ⟨tc, lc⟩
  cases hc : coerceLabel lc with
  | none => simp [normalizeRow, hc]
  | some l =>
    simp only [normalizeRow, hc]
    cases tc <;> simp
    omega

lemma invalidCount_eq (rows : List RawRow) :
    invalidCount rows = rows.length - (normalizeRows rows).length := by
  induction rows with
  | nil => rfl
  | cons r rs ih =>
    have hle := List.length_filterMap_le normalizeRow rs
    unfold invalidCount normalizeRows at ih ⊢
    cases hr : normalizeRow r <;>
      simp only [List.filter_cons, List.filterMap_cons, List.length_cons, hr,
        Option.isNone_none, Option.isNone_some, if_true, if_false, List.length_cons] <;>
      (simp_all; try omega)

/-- C4: a raw row is kept by normalization (src/unnamed/part_000,
`inspectData`) iff its text cell is a string of positive trimmed length and
its label is the literal number 0 or 1 or a string trimming to exactly "0"
or "1"; every other row is dropped; a kept row stores the trimmed text and
the coerced integer label 0 or 1; and the dropped-row count equals the input
row count minus the output row count. -/
theorem C4_normalization :
    (∀ r : RawRow,
      ((normalizeRow r).isSome ↔
        ((∃ s, r.text = Cell.str s ∧ 0 < (jsTrim s).length) ∧
         (r.label = Cell.num 0 ∨ r.label = Cell.num 1 ∨
          ∃ t, r.label = Cell.str t ∧ (jsTrim t = "0" ∨ jsTrim t = "1")))) ∧
      (∀ n, normalizeRow r = some n →
        (∃ s, r.text = Cell.str s ∧ n.text = jsTrim s) ∧
        coerceLabel r.label = some n.label ∧ (n.label = 0 ∨ n.label = 1))) ∧
    (∀ rows : List RawRow,
      invalidCount rows = rows.length - (normalizeRows rows).length) := by
  refine ⟨fun r => ⟨?_, ?_⟩, invalidCount_eq⟩
  · rw [normalizeRow_isSome_iff, coerceLabel_isSome_iff]
  · intro n hn
    rcases r with ⟨tc, lc⟩
    cases hc : coerceLabel lc with
    | none =>
      cases tc <;> simp [normalizeRow, hc] at hn
    | some l =>
      cases tc with
      | str s =>
        simp only [normalizeRow, hc] at hn
        by_cases hz : (jsTrim s).length = 0
        · rw [if_pos hz] at hn
          exact Option.noConfusion hn
        · rw [if_neg hz] at hn
          obtain rfl := Option.some.inj hn
          exact ⟨⟨s, rfl, rfl⟩, rfl, coerceLabel_val lc l hc⟩
      | num m => simp [normalizeRow, hc] at hn
      | null => simp [normalizeRow, hc] at hn
      | undef => simp [normalizeRow, hc] at hn
      | boolean b => simp [normalizeRow, hc] at hn

/-- C4 witness: the row with text " hi " and label " 1 " is kept (stored as
"hi" with label 1), the row with whitespace-only text is dropped, and on a
two-row input with one invalid row the drop count is 2 - 1. -/
theorem C4_normalization_witness :
    (normalizeRow (RawRow.mk (Cell.str " hi ") (Cell.str " 1 "))).isSome ∧
    ¬ (normalizeRow (RawRow.mk (Cell.str "   ") (Cell.num 1))).isSome ∧
    invalidCount
      [RawRow.mk (Cell.str " hi ") (Cell.str " 1 "), RawRow.mk Cell.null (Cell.num 0)]
      = 2 - 1 := by
  obtain ⟨hrow, hcount⟩ := C4_normalization
  refine ⟨?_, ?_, ?_⟩
  · exact (hrow _).1.mpr
      ⟨⟨" hi ", rfl, by decide⟩, Or.inr (Or.inr ⟨" 1 ", rfl, Or.inr (by decide)⟩)⟩
  · intro hs
    obtain ⟨⟨s, hs1, hs2⟩, -⟩ := (hrow _).1.mp hs
    obtain rfl := Cell.str.inj hs1
    exact absurd hs2 (by decide)
  · exact (hcount _).trans (by decide)

/-- C7: a candidate file is accepted for a role iff its name equals the
role's fixed expected name exactly; on mismatch the role's stored reference
is set to null, in both source variants of `handleFileChange`. -/
theorem C7_file_validator (s : LoadedFiles) (r : Role) (f : DataFile) :
    ((handleFileChange s r (some f)) r = some f ↔ f.name = requiredFileName r) ∧
    (f.name ≠ requiredFileName r → (handleFileChange s r (some f)) r = none) ∧
    ((handleFileChangeV2 s r (some f)) r = some f ↔ f.name = requiredFileName r) ∧
    (f.name ≠ requiredFileName r → (handleFileChangeV2 s r (some f)) r = none) := by
  unfold handleFileChange handleFileChangeV2 setRole
  by_cases h : f.name = requiredFileName r <;> simp [h]

/-- C7 witness: "train.csv" is accepted for the training role; "wrong.csv"
is rejected and the training slot is cleared. -/
theorem C7_file_validator_witness :
    (handleFileChange (fun _ => none) Role.training (some (DataFile.mk "train.csv")))
        Role.training = some (DataFile.mk "train.csv") ∧
    (handleFileChange (fun _ => some (DataFile.mk "train.csv"))) Role.training
        (some (DataFile.mk "wrong.csv")) Role.training = none := by
  constructor
  · exact (C7_file_validator (fun _ => none) Role.training (DataFile.mk "train.csv")).1.mpr rfl
  · exact (C7_file_validator (fun _ => some (DataFile.mk "train.csv")) Role.training
      (DataFile.mk "wrong.csv")).2.1 (by decide)

/-- C8: after all three parses complete, `loadData` succeeds iff every role
has at least one row, and on failure the single reported error names
exactly the roles whose data has zero rows. -/
theorem C8_zero_row_collection {α : Type} (data : Role → List α) :
    (loadDataOutcome data = LoadOutcome.success ↔ ∀ r ∈ allRoles, data r ≠ []) ∧
    (∀ l, loadDataOutcome data = LoadOutcome.dataError l →
      ∀ r, (r ∈ l ↔ r ∈ allRoles ∧ data r = [])) := by
  have hmem : ∀ r, r ∈ allRoles.filter (fun k => (data k).length = 0) ↔
      (r ∈ allRoles ∧ data r = []) := by
    intro r
    rw [List.mem_filter]
    simp [List.length_eq_zero]
  unfold loadDataOutcome
  by_cases h : 0 < (allRoles.filter (fun k => (data k).length = 0)).length
  · rw [if_pos h]
    constructor
    · constructor
      · intro hsucc
        exact LoadOutcome.noConfusion hsucc
      · intro hall
        exfalso
        obtain ⟨r, hr⟩ :=
          List.exists_mem_of_ne_nil _ (List.length_pos.mp h)
        obtain ⟨hr1, hr2⟩ := (hmem r).mp hr
        exact hall r hr1 hr2
    · intro l hl r
      have h2 := LoadOutcome.dataError.inj hl
      rw [← h2]
      exact hmem r
  · rw [if_neg h]
    constructor
    · refine ⟨fun _ r hr hempty => ?_, fun _ => rfl⟩
      apply h
      exact List.length_pos.mpr (List.ne_nil_of_mem ((hmem r).mpr ⟨hr, hempty⟩))
    · intro l hl
      exact LoadOutcome.noConfusion hl

/-- C8 witness: with one row per role the stage succeeds; with an empty
testing role the error names exactly the testing role. -/
theorem C8_zero_row_collection_witness :
    loadDataOutcome (fun _ : Role => [1]) = LoadOutcome.success ∧
    (Role.testing ∈ [Role.testing] ↔ Role.testing ∈ allRoles ∧
      (if Role.testing = Role.testing then ([] : List Nat) else [1]) = []) := by
  constructor
  · exact (C8_zero_row_collection (fun _ : Role => [1])).1.mpr (by decide)
  · exact (C8_zero_row_collection
      (fun r : Role => if r = Role.testing then ([] : List Nat) else [1])).2
      [Role.testing] (by decide) Role.testing

/-- C9: `simpleTokenizer` is total at its public interface: every argument
that is not a string (null, undefined, number, boolean) yields the empty
token list rather than failing. -/
theorem C9_tokenizer_total (v : Cell) (h : ∀ s, v ≠ Cell.str s) :
    simpleTokenizerJs v = [] := by
  cases v with
  | str s => exact absurd rfl (h s)
  | num n => rfl
  | null => rfl
  | undef => rfl
  | boolean b => rfl

/-- C9 witness: the null argument yields the empty token list. -/
theorem C9_tokenizer_total_witness : simpleTokenizerJs Cell.null = [] :=
  C9_tokenizer_total Cell.null (fun _ h => Cell.noConfusion h)

/-- C10: a file-change event on one role's input modifies at most that
role's entry of `loadedFiles`: every other role's stored reference is
unchanged, in both source variants of `handleFileChange`. -/
theorem C10_frame (s : LoadedFiles) (r : Role) (file : Option DataFile) (q : Role)
    (hq : q ≠ r) :
    handleFileChange s r file q = s q ∧ handleFileChangeV2 s r file q = s q := by
  cases file with
  | none => simp [handleFileChange, handleFileChangeV2, setRole, hq]
  | some f =>
    by_cases h : f.name = requiredFileName r <;>
      simp [handleFileChange, handleFileChangeV2, setRole, h, hq]

/-- C10 witness: a rejected file on the training input leaves the testing
slot unchanged. -/
theorem C10_frame_witness :
    handleFileChange (fun _ => none) Role.training (some (DataFile.mk "nope.csv"))
        Role.testing = none ∧
    handleFileChangeV2 (fun _ => none) Role.training (some (DataFile.mk "nope.csv"))
        Role.testing = none :=
  C10_frame (fun _ => none) Role.training (some (DataFile.mk "nope.csv"))
    Role.testing (by decide)

end AITextDetect
